import Mathlib

/-!
Verification development for the crotp-web credential vault and code engine.

Shallow embedding of the TypeScript sources:
* `src/totp.ts`   — TOTP code engine (normalization, step arithmetic, HOTP
  dynamic truncation, window generation) and the otpauth URI / Base32 layer.
* `src/db.ts`     — vault record store (add / list / reorder).
* `src/main.ts`   — the unlock bootstrap that decrypts records into the
  in-memory cache.

Strings are modelled as `List Char`; JS numbers that matter to the claims are
modelled as exact values (`Int`, `ℚ`, or a `JSNum` sum covering NaN/Infinity).
Platform primitives (WebCrypto HMAC, AES-GCM, `decodeURIComponent`) are
parameters of the functions that consume them.
-/

namespace CROTP

/-- JS number as seen by the code under test: a finite value (modelled as a
rational, which is exact on every input the claims quantify over) or one of
the non-finite values NaN / +Infinity / -Infinity. -/
inductive JSNum where
  | finite (q : ℚ)
  | nan
  | posInf
  | negInf
deriving DecidableEq

/-- The ECMA-262 whitespace class: `WhiteSpace ∪ LineTerminator`, the set
matched by the regex `\s` and stripped by `String.prototype.trim` — TAB, LF,
VT, FF, CR, space, NBSP, the Unicode `Zs` space separators (U+1680,
U+2000–U+200A, U+202F, U+205F, U+3000), LS, PS, and ZWNBSP (U+FEFF). -/
def jsWhite (c : Char) : Bool :=
  let n := c.toNat
  n == 0x09 || n == 0x0A || n == 0x0B || n == 0x0C || n == 0x0D ||
  n == 0x20 || n == 0xA0 || n == 0x1680 ||
  (0x2000 ≤ n && n ≤ 0x200A) ||
  n == 0x2028 || n == 0x2029 || n == 0x202F || n == 0x205F ||
  n == 0x3000 || n == 0xFEFF

/-- Model of `String.prototype.trim`: drop leading and trailing whitespace. -/
def jsTrim (s : List Char) : List Char :=
  ((s.dropWhile jsWhite).reverse.dropWhile jsWhite).reverse

/-- Full uppercase mapping of one code point under
`String.prototype.toUpperCase` (Unicode Default Case Conversion, no locale).
Exact on ASCII and on every code point whose uppercase consists only of
Base32-alphabet characters: ı (U+0131) and ſ (U+017F) by UnicodeData, and the
expanding mappings ß → SS and the Latin ligatures ﬀ ﬁ ﬂ ﬃ ﬄ ﬅ ﬆ
(U+FB00–U+FB06) by SpecialCasing.  Every other non-ASCII code point is kept
unchanged; this is observationally equivalent for this program, since for
those code points both the character and its real uppercase lie outside the
Base32 alphabet (any ASCII letters in an expansion come with a non-ASCII
mark, as in ʼn → ʼN or ẖ → H + U+0331), and `normalizeAlg` only compares
against ASCII strings. -/
def jsUpperChar (c : Char) : List Char :=
  let n := c.toNat
  if 0x61 ≤ n ∧ n ≤ 0x7A then [Char.ofNat (n - 32)]
  else if n = 0xDF then ['S', 'S']
  else if n = 0x131 then ['I']
  else if n = 0x17F then ['S']
  else if n = 0xFB00 then ['F', 'F']
  else if n = 0xFB01 then ['F', 'I']
  else if n = 0xFB02 then ['F', 'L']
  else if n = 0xFB03 then ['F', 'F', 'I']
  else if n = 0xFB04 then ['F', 'F', 'L']
  else if n = 0xFB05 then ['S', 'T']
  else if n = 0xFB06 then ['S', 'T']
  else [c]

/-- Model of `String.prototype.toUpperCase`: concatenation of the per-code-
point uppercase mappings (which may expand, e.g. `'ß'` to `"SS"`). -/
def jsToUpper : List Char → List Char
  | [] => []
  | c :: rest => jsUpperChar c ++ jsToUpper rest

/-- Model of `String.prototype.toLowerCase` on the ASCII range. -/
def jsToLower (s : List Char) : List Char := s.map Char.toLower

/-- Model of `String.prototype.indexOf` for a one-character needle:
index of the first occurrence, `-1` when absent. -/
def jsIndexOf (c : Char) : List Char → Int
  | [] => -1
  | a :: rest =>
    if a = c then 0
    else
      let r := jsIndexOf c rest
      if r = -1 then -1 else r + 1

/-- `totp.ts` — `TOTPHashAlg`: the two supported hash algorithms. -/
inductive Alg where
  | sha1
  | sha256
deriving DecidableEq

/-- `totp.ts` — the `6 | 8` digits union type. -/
inductive Digits where
  | six
  | eight
deriving DecidableEq

/-- Numeric value of a `Digits` member. -/
def Digits.toNat : Digits → Nat
  | .six => 6
  | .eight => 8

/-- `totp.ts` `normalizeAlg`: `undefined` (and, via `!alg`, the empty string)
defaults to SHA-1; the four spellings are recognised case-insensitively;
anything else falls back to SHA-1. -/
def normalizeAlg (alg : Option (List Char)) : Alg :=
  match alg with
  | none => .sha1
  | some s =>
    if s = [] then .sha1
    else
      let up := jsToUpper s
      if up = "SHA1".data ∨ up = "SHA-1".data then .sha1
      else if up = "SHA256".data ∨ up = "SHA-256".data then .sha256
      else .sha1

/-- `totp.ts` `normalizeDigits`: `d === 8 ? 8 : 6`. -/
def normalizeDigits (d : Option JSNum) : Digits :=
  if d = some (.finite 8) then .eight else .six

/-- `totp.ts` `normalizePeriod`: finite numbers are floored then clamped into
`[5, 300]`; `undefined` and non-finite numbers become the default 30 (which
the clamp leaves unchanged). -/
def normalizePeriod (p : Option JSNum) : Int :=
  let period : Int :=
    match p with
    | some (.finite q) => ⌊q⌋
    | _ => 30
  min 300 (max 5 period)

/-- `totp.ts` `stepAt`: `floor(floor(timestampMs / 1000) / period)`.
JS `Math.floor` of an exact division is floor division, i.e. `Int.fdiv`. -/
def stepAt (timestampMs period : Int) : Int :=
  (timestampMs.fdiv 1000).fdiv period

/-- `totp.ts` `secondsRemaining`: `period - (seconds % period) - 1` where
`%` is the JS remainder operator (sign of the dividend), i.e. `Int.tmod`. -/
def secondsRemaining (timestampMs period : Int) : Int :=
  period - (timestampMs.fdiv 1000).tmod period - 1

/-- Loop body of `totp.ts` `numberTo8ByteBE`: the source fills `bytes[i]` for
`i = 7 .. 0` with `v & 0xff`, shifting `v` right 8 bits (arithmetically, on a
BigInt) each iteration, so the last byte of the result comes from the original
`v`.  BigInt `& 0xffn` is `Int.emod 256` and `>>= 8n` is `Int.fdiv 256`. -/
def numberTo8ByteBEAux : Nat → Int → List Nat
  | 0, _ => []
  | k + 1, v => numberTo8ByteBEAux k (v.fdiv 256) ++ [(v.emod 256).toNat]

/-- `totp.ts` `numberTo8ByteBE`: 8-byte big-endian encoding of the step. -/
def numberTo8ByteBE (n : Int) : List Nat := numberTo8ByteBEAux 8 n

/-- `totp.ts` `dynamicTruncate` (RFC 4226 §5.3).  Out-of-range reads return
`undefined` in JS, which the bit operations coerce to 0, hence `getD _ 0`.
All intermediate values stay below 2^31, where JS 32-bit `<<` and `|`
coincide with the unbounded `Nat` operations used here. -/
def dynamicTruncate (mac : List Nat) : Nat :=
  let offset := mac.getD (mac.length - 1) 0 &&& 0x0f
  let p0 := mac.getD offset 0
  let p1 := mac.getD (offset + 1) 0
  let p2 := mac.getD (offset + 2) 0
  let p3 := mac.getD (offset + 3) 0
  ((p0 &&& 0x7f) <<< 24) ||| (p1 <<< 16) ||| (p2 <<< 8) ||| p3

/-- Decimal rendering of a natural number, modelling JS
`Number.prototype.toString()` for the nonnegative integers produced by
`padDigits`. -/
def toDecimal (n : Nat) : List Char :=
  if h : n < 10 then [Char.ofNat (48 + n)]
  else toDecimal (n / 10) ++ [Char.ofNat (48 + n % 10)]
decreasing_by exact Nat.div_lt_self (by omega) (by omega)

/-- Model of `String.prototype.padStart(n, c)`. -/
def padStart (s : List Char) (n : Nat) (c : Char) : List Char :=
  List.replicate (n - s.length) c ++ s

/-- `totp.ts` `padDigits`: reduce modulo `10^digits` and left-pad with zeros. -/
def padDigits (n : Nat) (digits : Digits) : List Char :=
  let m : Nat := match digits with
    | .eight => 100000000
    | .six => 1000000
  padStart (toDecimal (n % m)) digits.toNat '0'

/-- The WebCrypto HMAC primitive consumed by `totp.ts`, abstracted:
algorithm, key bytes, message bytes to MAC bytes. -/
def HmacFn : Type := Alg → List Nat → List Nat → List Nat

/-- `totp.ts` `generateTOTPForStep`: HMAC the 8-byte big-endian step encoding,
dynamically truncate, pad to the requested digit count. -/
def generateTOTPForStep (hmacFn : HmacFn) (secret : List Nat) (step : Int)
    (digits : Digits) (alg : Alg) : List Char :=
  padDigits (dynamicTruncate (hmacFn alg secret (numberTo8ByteBE step))) digits

/-- `totp.ts` `TOTPOptions` (the optional `timestamp` defaults to the ambient
clock, passed explicitly as `now` below). -/
structure TOTPOptions where
  secret : List Nat
  period : Option JSNum
  digits : Option JSNum
  algorithm : Option (List Char)
  timestamp : Option Int

/-- `totp.ts` `TOTPWindow`. -/
structure TOTPWindow where
  prev : List Char
  current : List Char
  next : List Char
  remainingSeconds : Int
  step : Int
  period : Int
  digits : Digits
  algorithm : Alg

/-- `totp.ts` `generateTOTPWindow`: normalize the options, derive the step
from the timestamp, and compute the codes for steps `step-1`, `step`,
`step+1`. -/
def generateTOTPWindow (hmacFn : HmacFn) (now : Int) (opts : TOTPOptions) :
    TOTPWindow :=
  let period := normalizePeriod opts.period
  let digits := normalizeDigits opts.digits
  let alg := normalizeAlg opts.algorithm
  let ts := match opts.timestamp with
    | some t => t
    | none => now
  let step := stepAt ts period
  { prev := generateTOTPForStep hmacFn opts.secret (step - 1) digits alg
    current := generateTOTPForStep hmacFn opts.secret step digits alg
    next := generateTOTPForStep hmacFn opts.secret (step + 1) digits alg
    remainingSeconds := secondsRemaining ts period
    step := step
    period := period
    digits := digits
    algorithm := alg }

/-- `otpauth.ts` — the RFC 4648 Base32 alphabet. -/
def base32Alphabet : List Char := "ABCDEFGHIJKLMNOPQRSTUVWXYZ234567".data

/-- The lookup map built from the alphabet: index of the character, or
`none` when absent (the JS `Map.get` returning `undefined`). -/
def b32Lookup (c : Char) : Option Nat :=
  let i := base32Alphabet.indexOf c
  if i < base32Alphabet.length then some i else none

/-- Cleaning pass of `base32DecodeToBytes`: remove all whitespace
(`replace(/\s+/g, '')`), strip the trailing run of `=` padding
(`replace(/=+$/g, '')`), then uppercase. -/
def b32Clean (input : List Char) : List Char :=
  jsToUpper (((input.filter fun c => !jsWhite c).reverse.dropWhile
    fun c => c = '=').reverse)

/-- Main loop of `base32DecodeToBytes`.  JS accumulates
`value = (value << 5) | v` on a 32-bit pattern (modelled as `Nat` reduced
mod `2^32`; `v < 32` fills exactly the shifted-in low bits, so the `|` is
addition) and emits `(value >>> bits) & 0xff` whenever 8 bits are
available. -/
def b32Loop (dec : List Char) (bits value : Nat) (out : List Nat) :
    Option (List Nat) :=
  match dec with
  | [] => some out
  | c :: rest =>
    match b32Lookup c with
    | none => none
    | some v =>
      let value2 := (value * 32 + v) % 2 ^ 32
      let bits2 := bits + 5
      if 8 ≤ bits2 then
        b32Loop rest (bits2 - 8) value2 (out ++ [value2 / 2 ^ (bits2 - 8) % 256])
      else
        b32Loop rest bits2 value2 out

/-- `otpauth.ts` `base32DecodeToBytes`: `none` models the thrown
`Invalid Base32 character` error. -/
def base32DecodeToBytes (input : List Char) : Option (List Nat) :=
  let cleaned := b32Clean input
  if cleaned = [] then some []
  else b32Loop cleaned 0 0 []

/-- `otpauth.ts` `splitLabel`: trim the raw label; when the first colon sits
at index `> 0`, the text before it (trimmed) is the candidate issuer and the
text after it (trimmed) the account; the account falls back to the whole
cleaned label when empty (`account || cleaned`) and the issuer to absent when
empty (`issuer || undefined`). -/
def splitLabel (labelRaw : List Char) : List Char × Option (List Char) :=
  let cleaned := jsTrim labelRaw
  let idx := jsIndexOf ':' cleaned
  if 0 < idx then
    let issuer := jsTrim (cleaned.take idx.toNat)
    let account := jsTrim (cleaned.drop (idx.toNat + 1))
    ((if account = [] then cleaned else account),
     (if issuer = [] then none else some issuer))
  else
    (cleaned, none)

/-- Errors thrown by `parseOtpauthUri` (plus `uriError` for a throwing
`decodeURIComponent`). -/
inductive ParseError where
  | protocolNotOtpauth
  | onlyTotp
  | missingSecret
  | invalidBase32
  | uriError
deriving DecidableEq

/-- The slice of the WHATWG `URL` object that `parseOtpauthUri` reads.  The
platform URL parser is a collaborator; the repository's code starts from its
output.  `searchParams` keeps document order; `get` returns the first match. -/
structure URLModel where
  protocol : List Char
  hostname : List Char
  pathname : List Char
  searchParams : List (List Char × List Char)

/-- `URLSearchParams.get`: first value for the key, or `undefined`. -/
def paramsGet (ps : List (List Char × List Char)) (key : List Char) :
    Option (List Char) :=
  match ps with
  | [] => none
  | (k, v) :: rest => if k = key then some v else paramsGet rest key

/-- `url.pathname.replace(/^\/+/, '')`: strip the run of leading slashes. -/
def dropLeadingSlashes (s : List Char) : List Char :=
  s.dropWhile fun c => c = '/'

/-- `otpauth.ts` `ParsedTOTPEntry`. -/
structure ParsedTOTPEntry where
  label : List Char
  issuer : Option (List Char)
  secretBytes : List Nat
  algorithm : Alg
  digits : Digits
  period : Int
deriving DecidableEq

/-- Value of a decimal digit character, `none` otherwise. -/
def digitVal (c : Char) : Option Nat :=
  if '0' ≤ c ∧ c ≤ '9' then some (c.toNat - 48) else none

/-- Accumulates the decimal digits consumed by `parseInt`. -/
def parseIntAcc (cs : List Char) (acc : Nat) : Nat :=
  match cs with
  | [] => acc
  | c :: rest =>
    match digitVal c with
    | some d => parseIntAcc rest (acc * 10 + d)
    | none => acc

/-- Model of JS `parseInt(s, 10)`: skip leading whitespace, optional sign,
then the longest digit prefix; NaN when no digit follows.  (The claims never
reach the range where a JS double would round the value.) -/
def jsParseInt (s : List Char) : JSNum :=
  let t := s.dropWhile jsWhite
  match t with
  | [] => .nan
  | c :: rest =>
    let sign : Int := if c = '-' then -1 else 1
    let ds := if c = '-' ∨ c = '+' then rest else t
    match ds with
    | [] => .nan
    | d :: _ =>
      if (digitVal d).isSome then
        .finite ((sign * (parseIntAcc (ds.takeWhile fun x => (digitVal x).isSome) 0 : Int) : Int) : ℚ)
      else .nan

/-- `otpauth.ts` `parseOtpauthUri`, starting from the parsed `URL` object
(`new URL` itself is platform code; a malformed URL never reaches this
logic).  `dec` abstracts `decodeURIComponent`; `none` models its `URIError`.
Empty-string query values are falsy in JS, hence every `p.get(k) || undefined`
and `p.get(k) ? ... : undefined` treats them as absent. -/
def parseOtpauthUri (dec : List Char → Option (List Char)) (u : URLModel) :
    Except ParseError ParsedTOTPEntry :=
  if u.protocol ≠ "otpauth:".data then .error .protocolNotOtpauth
  else if jsToLower u.hostname ≠ "totp".data then .error .onlyTotp
  else
    match dec (dropLeadingSlashes u.pathname) with
    | none => .error .uriError
    | some labelRaw =>
      let sl := splitLabel labelRaw
      match paramsGet u.searchParams "secret".data with
      | none => .error .missingSecret
      | some secretParam =>
        if secretParam = [] then .error .missingSecret
        else
          let algorithmParam := match paramsGet u.searchParams "algorithm".data with
            | some s => if s = [] then none else some s
            | none => none
          let digitsParam := paramsGet u.searchParams "digits".data
          let periodParam := paramsGet u.searchParams "period".data
          let algorithm := normalizeAlg algorithmParam
          let digits := normalizeDigits (match digitsParam with
            | some s => if s = [] then none else some (jsParseInt s)
            | none => none)
          let period := normalizePeriod (match periodParam with
            | some s => if s = [] then none else some (jsParseInt s)
            | none => none)
          let issuerParam := match paramsGet u.searchParams "issuer".data with
            | some s => if s = [] then none else some s
            | none => none
          match base32DecodeToBytes secretParam with
          | none => .error .invalidBase32
          | some secretBytes =>
            .ok { label := sl.1
                  issuer := match issuerParam with
                    | some i => some i
                    | none => sl.2
                  secretBytes := secretBytes
                  algorithm := algorithm
                  digits := digits
                  period := period }

/-- `db.ts` `DBSecretRecord` (ids are random hex strings; modelled as
distinct naturals supplied by the caller, as `generateId` is platform
randomness). -/
structure DBSecretRecord where
  id : Nat
  label : List Char
  issuer : Option (List Char)
  alg : Alg
  digits : Digits
  period : Int
  encSecret : List Nat
  iv : List Nat
  createdAt : Int
  updatedAt : Int
  order : Int
deriving DecidableEq

/-- Stable insertion used to model `arr.slice().sort((a, b) => a.order - b.order)`
(JS `Array.prototype.sort` is stable): an element moves past another only
when its `order` is strictly smaller. -/
def insertByOrder (r : DBSecretRecord) : List DBSecretRecord → List DBSecretRecord
  | [] => [r]
  | x :: xs => if r.order ≤ x.order then r :: x :: xs else x :: insertByOrder r xs

/-- `db.ts` `listSecrets`: all records sorted ascending by `order`. -/
def listSecrets (store : List DBSecretRecord) : List DBSecretRecord :=
  store.foldr insertByOrder []

/-- `db.ts` `NewSecretInput`. -/
structure NewSecretInput where
  label : List Char
  issuer : Option (List Char)
  alg : Alg
  digits : Digits
  period : Int
  encSecret : List Nat
  iv : List Nat

/-- `db.ts` `addSecret`: `order` is `max(existing orders) + 1`, or 1 for an
empty store; both timestamps are set to `now`; the record is persisted and
returned.  `newId` stands for the random `generateId()`. -/
def addSecret (now : Int) (newId : Nat) (input : NewSecretInput)
    (store : List DBSecretRecord) : DBSecretRecord × List DBSecretRecord :=
  let current := listSecrets store
  let nextOrder : Int :=
    match current.map fun s => s.order with
    | [] => 1
    | o :: os => os.foldl max o + 1
  let record : DBSecretRecord :=
    { id := newId
      label := jsTrim input.label
      issuer := match input.issuer with
        | some s => if jsTrim s = [] then none else some (jsTrim s)
        | none => none
      alg := input.alg
      digits := input.digits
      period := input.period
      encSecret := input.encSecret
      iv := input.iv
      createdAt := now
      updatedAt := now
      order := nextOrder }
  (record, store ++ [record])

/-- `db.ts` `reorderSecrets`: apply each `(id, order)` pair in turn, bumping
`updatedAt`; ids that match no record are skipped. -/
def reorderSecrets (now : Int) (pairs : List (Nat × Int))
    (store : List DBSecretRecord) : List DBSecretRecord :=
  match pairs with
  | [] => store
  | (i, o) :: rest =>
    reorderSecrets now rest
      (store.map fun r =>
        if r.id = i then { r with order := o, updatedAt := now } else r)

/-- `main.ts` — a decrypted cache entry. -/
structure CacheEntry where
  id : Nat
  label : List Char
  issuer : Option (List Char)
  alg : Alg
  digits : Digits
  period : Int
  secretBytes : List Nat
deriving DecidableEq

/-- JS `Map.set`: replace in place when the key exists, else append. -/
def cacheSet (cache : List (Nat × CacheEntry)) (k : Nat) (v : CacheEntry) :
    List (Nat × CacheEntry) :=
  match cache with
  | [] => [(k, v)]
  | (k0, v0) :: rest =>
    if k0 = k then (k, v) :: rest else (k0, v0) :: cacheSet rest k v

/-- The `for` loop of `main.ts` `unlock`.  `dec iv encSecret` abstracts
`decryptAESGCM(sessionKey, iv, encSecret)`; `none` models a rejected promise
(`AuthenticationFailure`).  The loop body has no try/catch: a failed await
propagates out of `unlock`, so the traversal stops with the cache as built so
far, and the `Bool` records whether the code after the loop
(`refreshList(); startTicker()`) is reached. -/
def unlockLoop (dec : List Nat → List Nat → Option (List Nat)) :
    List DBSecretRecord → List (Nat × CacheEntry) →
    List (Nat × CacheEntry) × Bool
  | [], cache => (cache, true)
  | r :: rest, cache =>
    match dec r.iv r.encSecret with
    | some secretBytes =>
      unlockLoop dec rest
        (cacheSet cache r.id
          ⟨r.id, r.label, r.issuer, r.alg, r.digits, r.period, secretBytes⟩)
    | none => (cache, false)

/-- `main.ts` `unlock`: clear the cache, read all records (sorted, via
`listSecrets`), decrypt each into the cache. -/
def unlock (dec : List Nat → List Nat → Option (List Nat))
    (store : List DBSecretRecord) : List (Nat × CacheEntry) × Bool :=
  unlockLoop dec (listSecrets store) []

/-- Modelled from the spec's words for claim C2 (RFC 4226 §5.3 reference):
the 8-byte big-endian encoding of a nonnegative counter. -/
def rfcUInt8BE (n : Nat) : List Nat :=
  [n / 2 ^ 56 % 256, n / 2 ^ 48 % 256, n / 2 ^ 40 % 256, n / 2 ^ 32 % 256,
   n / 2 ^ 24 % 256, n / 2 ^ 16 % 256, n / 2 ^ 8 % 256, n % 256]

/-- Modelled from the spec's words for claim C2: take the low 4 bits of the
final hash byte as an offset, read 4 bytes there as a big-endian 32-bit
value, mask the top bit to zero. -/
def rfcTruncate (mac : List Nat) : Nat :=
  let offset := mac.getD (mac.length - 1) 0 % 16
  (mac.getD offset 0 * 2 ^ 24 + mac.getD (offset + 1) 0 * 2 ^ 16 +
   mac.getD (offset + 2) 0 * 2 ^ 8 + mac.getD (offset + 3) 0) % 2 ^ 31

/-- Modelled from the spec's words for claim C2: HMAC the 8-byte big-endian
counter, truncate, reduce modulo `10^digits`, left-zero-pad to `digits`
characters. -/
def rfcCodeForStep (hmacFn : HmacFn) (secret : List Nat) (step : Nat)
    (digits : Digits) (alg : Alg) : List Char :=
  padStart
    (toDecimal (rfcTruncate (hmacFn alg secret (rfcUInt8BE step)) % 10 ^ digits.toNat))
    digits.toNat '0'

/-! ## Claim theorems -/

/-- Claim C1: the spec requires a decryption failure to abort loading of that
one record only, with every other record still reaching the cache.  The code
has no per-record error handling: evaluating `unlock` on a store of two
records whose first fails authentication (while the second decrypts fine)
leaves the cache empty — the perfectly decryptable second record is lost and
the post-load refresh is never reached. -/
theorem unlock_eval_first_record_bad :
    (fun dec : List Nat → List Nat → Option (List Nat) =>
      (unlock dec
        [⟨1, ['A'], none, .sha1, .six, 30, [9], [1], 0, 0, 1⟩,
         ⟨2, ['B'], none, .sha1, .six, 30, [8], [2], 0, 0, 2⟩]).1 = [] ∧
      (unlock dec
        [⟨1, ['A'], none, .sha1, .six, 30, [9], [1], 0, 0, 1⟩,
         ⟨2, ['B'], none, .sha1, .six, 30, [8], [2], 0, 0, 2⟩]).2 = false ∧
      dec [2] [8] = some [42])
      (fun _ ct => if ct = [8] then some [42] else none) := by
  decide

/-- Claim C3: `generateTOTPWindow` computes `current`, `prev` and `next` with
`generateTOTPForStep` at steps `s`, `s-1`, `s+1`, where `s = stepAt t period`
for the normalized period, all from the same timestamp `t`. -/
theorem window_codes_from_same_step (hmacFn : HmacFn) (secret : List Nat)
    (p d : Option JSNum) (a : Option (List Char)) (now t : Int) :
    (generateTOTPWindow hmacFn now ⟨secret, p, d, a, some t⟩).current =
      generateTOTPForStep hmacFn secret (stepAt t (normalizePeriod p))
        (normalizeDigits d) (normalizeAlg a) ∧
    (generateTOTPWindow hmacFn now ⟨secret, p, d, a, some t⟩).prev =
      generateTOTPForStep hmacFn secret (stepAt t (normalizePeriod p) - 1)
        (normalizeDigits d) (normalizeAlg a) ∧
    (generateTOTPWindow hmacFn now ⟨secret, p, d, a, some t⟩).next =
      generateTOTPForStep hmacFn secret (stepAt t (normalizePeriod p) + 1)
        (normalizeDigits d) (normalizeAlg a) ∧
    (generateTOTPWindow hmacFn now ⟨secret, p, d, a, some t⟩).step =
      stepAt t (normalizePeriod p) := by
  exact ⟨rfl, rfl, rfl, rfl⟩

/-- Claim C5, counterexample: at timestamp `-1000` ms with period 30 the code
returns 30, which is outside `[0, 29]` and differs from the claimed formula
`period - (floor(t/1000) mod period) - 1` (whose value here is 0, the `mod`
being the nonnegative remainder). -/
theorem secondsRemaining_neg_timestamp_cex :
    secondsRemaining (-1000) 30 = 30 ∧
    ¬ secondsRemaining (-1000) 30 ≤ 30 - 1 ∧
    secondsRemaining (-1000) 30 ≠ 30 - (Int.fdiv (-1000) 1000).emod 30 - 1 := by
  decide

/-- Claim C5, amended: for every nonnegative timestamp and period in
`[5, 300]`, `secondsRemaining` equals
`period - (floor(t/1000) mod period) - 1` and lies in `[0, period-1]`.
(For negative timestamps the JS `%` keeps the dividend's sign and the result
can exceed `period - 1`.) -/
theorem secondsRemaining_formula_and_range (t period : Int) (ht : 0 ≤ t)
    (h5 : 5 ≤ period) (h300 : period ≤ 300) :
    secondsRemaining t period = period - (t.fdiv 1000).emod period - 1 ∧
    0 ≤ secondsRemaining t period ∧
    secondsRemaining t period ≤ period - 1 := by
  have hs : 0 ≤ t.fdiv 1000 := Int.fdiv_nonneg ht (by norm_num)
  have hrw : (t.fdiv 1000).tmod period = (t.fdiv 1000).emod period :=
    Int.tmod_eq_emod hs (by omega)
  have h1 : 0 ≤ (t.fdiv 1000).emod period := Int.emod_nonneg _ (by omega)
  have h2 : (t.fdiv 1000).emod period < period := Int.emod_lt_of_pos _ (by omega)
  unfold secondsRemaining
  rw [hrw]
  omega

/-- Witness for the amended claim C5 at timestamp 59000 ms, period 30. -/
theorem secondsRemaining_formula_and_range_witness :
    secondsRemaining 59000 30 = 0 ∧ 0 ≤ secondsRemaining 59000 30 := by
  have h := secondsRemaining_formula_and_range 59000 30 (by norm_num)
    (by norm_num) (by norm_num)
  exact ⟨by rw [h.1]; decide, h.2.1⟩

/-- Claim C7: from an empty store, `add A; add B; add C` assigns orders
1, 2, 3 and `list` returns `[A, B, C]`; after `reorder [(C.id, 0)]`, `list`
returns `[C, A, B]`. -/
theorem vault_add_list_reorder :
    (fun s3 =>
      (listSecrets s3).map (fun r => r.id) = [1, 2, 3] ∧
      (listSecrets s3).map (fun r => r.order) = [1, 2, 3] ∧
      (listSecrets (reorderSecrets 200 [(3, 0)] s3)).map (fun r => r.id) =
        [3, 1, 2])
      (addSecret 102 3 ⟨"C".data, none, .sha1, .six, 30, [5], [6]⟩
        (addSecret 101 2 ⟨"B".data, none, .sha1, .six, 30, [3], [4]⟩
          (addSecret 100 1 ⟨"A".data, none, .sha1, .six, 30, [1], [2]⟩
            []).2).2).2 := by
  decide

/-- Claim C8: `normalizePeriod` always lands in `[5, 300]`; absent and
non-finite inputs yield the default 30; a finite input is floored then
clamped.  It is total — no input is rejected. -/
theorem normalizePeriod_range_and_defaults (p : Option JSNum) :
    5 ≤ normalizePeriod p ∧ normalizePeriod p ≤ 300 ∧
    normalizePeriod none = 30 ∧
    normalizePeriod (some .nan) = 30 ∧
    normalizePeriod (some .posInf) = 30 ∧
    normalizePeriod (some .negInf) = 30 ∧
    ∀ q : ℚ, normalizePeriod (some (.finite q)) = min 300 (max 5 ⌊q⌋) := by
  refine ⟨?_, ?_, by decide, by decide, by decide, by decide, fun q => rfl⟩
  · rcases p with _ | pn
    · decide
    · rcases pn with q | _ | _ | _ <;>
        simp only [normalizePeriod, le_min_iff, le_max_iff] <;> omega
  · rcases p with _ | pn
    · decide
    · rcases pn with q | _ | _ | _ <;>
        simp only [normalizePeriod] <;>
        exact min_le_left _ _

/-- The Base32 loop fails exactly when some remaining character is not in the
alphabet. -/
theorem b32Loop_none_iff : ∀ (cs : List Char) (bits value : Nat) (out : List Nat),
    b32Loop cs bits value out = none ↔ ∃ c ∈ cs, b32Lookup c = none := by
  intro cs
  induction cs with
  | nil => intro bits value out; simp [b32Loop]
  | cons c rest ih =>
    intro bits value out
    rw [b32Loop]
    cases hc : b32Lookup c with
    | none =>
      simp only []
      constructor
      · intro _
        exact ⟨c, List.mem_cons_self c rest, hc⟩
      · intro _
        trivial
    | some v =>
      dsimp only
      split
      all_goals
        rw [ih]
        constructor
        · rintro ⟨x, hx, hLx⟩
          exact ⟨x, List.mem_cons_of_mem _ hx, hLx⟩
        · rintro ⟨x, hx, hLx⟩
          rcases List.mem_cons.mp hx with rfl | hx'
          · simp [hc] at hLx
          · exact ⟨x, hx', hLx⟩

/-- Each consumed character contributes 5 bits and every full 8 bits becomes
one output byte; fewer than 8 leftover bits are dropped. -/
theorem b32Loop_length : ∀ (cs : List Char) (bits value : Nat) (out bs : List Nat),
    bits < 8 → b32Loop cs bits value out = some bs →
    bs.length = out.length + (bits + 5 * cs.length) / 8 := by
  intro cs
  induction cs with
  | nil =>
    intro bits value out bs hb h
    rw [b32Loop] at h
    simp only [Option.some.injEq] at h
    subst h
    simp only [List.length_nil, Nat.mul_zero, Nat.add_zero]
    omega
  | cons c rest ih =>
    intro bits value out bs hb h
    rw [b32Loop] at h
    cases hc : b32Lookup c with
    | none => rw [hc] at h; cases h
    | some v =>
      rw [hc] at h
      dsimp only at h
      split at h
      · have := ih _ _ _ _ (by omega) h
        simp only [List.length_append, List.length_singleton, List.length_cons,
          List.length_nil] at this ⊢
        omega
      · have := ih _ _ _ _ (by omega) h
        simp only [List.length_cons] at this ⊢
        omega

/-- Claim C6, counterexample: on the input `"ß"` the character that remains
after removing whitespace and trailing `=` padding is `'ß'`, which lies
outside the 32-symbol alphabet case-insensitively — the claim demands an
InvalidCharacter failure — yet the code succeeds: `toUpperCase` expands
`'ß'` to `"SS"`, both letters are in the alphabet, and decoding returns the
byte 148. -/
theorem base32_decode_sharp_s_cex :
    base32DecodeToBytes ['ß'] = some [148] ∧
    base32DecodeToBytes ['ß'] ≠ none ∧
    ((['ß'].filter fun c => !jsWhite c).reverse.dropWhile
      (fun c => c = '=')).reverse = ['ß'] ∧
    'ß' ∉ base32Alphabet ∧ 'ß' ∉ base32Alphabet.map Char.toLower := by
  decide

/-- Claim C6, amended: `base32DecodeToBytes` fails iff some character of the
cleaned input — whitespace removed, trailing `=` stripped, then uppercased
(JS `toUpperCase`, under which a character may expand, e.g. `'ß'` to `"SS"`)
— is outside the alphabet; empty cleaned input decodes to the empty byte
sequence; on success the output has `⌊5·n/8⌋` bytes for the `n` cleaned
characters — the final partial group is discarded. -/
theorem base32_decode_error_iff (input : List Char) :
    (base32DecodeToBytes input = none ↔
      ∃ c ∈ b32Clean input, b32Lookup c = none) ∧
    (b32Clean input = [] → base32DecodeToBytes input = some []) ∧
    ∀ bs, base32DecodeToBytes input = some bs →
      bs.length = 5 * (b32Clean input).length / 8 := by
  unfold base32DecodeToBytes
  by_cases h : b32Clean input = []
  · simp [h]
  · rw [if_neg h]
    refine ⟨b32Loop_none_iff _ _ _ _, fun hc => absurd hc h, fun bs hbs => ?_⟩
    have := b32Loop_length _ _ _ _ _ (by omega) hbs
    simpa using this

/-- Witness for claim C6: `"8"` (not in the alphabet) is rejected, and pure
whitespace decodes to the empty byte sequence. -/
theorem base32_decode_error_iff_witness :
    base32DecodeToBytes "8".data = none ∧
    base32DecodeToBytes " ".data = some [] :=
  ⟨(base32_decode_error_iff "8".data).1.mpr ⟨'8', by decide, by decide⟩,
   (base32_decode_error_iff " ".data).2.1 (by decide)⟩

/-- Every character of the decimal rendering is a digit. -/
theorem toDecimal_mem_isDigit : ∀ n : Nat, ∀ c ∈ toDecimal n, c.isDigit = true := by
  intro n
  induction n using Nat.strong_induction_on with
  | _ n ih =>
    intro c hc
    rw [toDecimal] at hc
    split at hc
    case isTrue h =>
      simp only [List.mem_singleton] at hc
      subst hc
      interval_cases n <;> decide
    case isFalse h =>
      rcases List.mem_append.mp hc with h1 | h2
      · exact ih (n / 10) (Nat.div_lt_self (by omega) (by omega)) c h1
      · simp only [List.mem_singleton] at h2
        subst h2
        have h10 : n % 10 < 10 := Nat.mod_lt _ (by omega)
        set k := n % 10 with hk
        interval_cases k <;> decide

/-- A value below `10^d` renders in at most `d` characters. -/
theorem toDecimal_length_le : ∀ (d n : Nat), 0 < d → n < 10 ^ d →
    (toDecimal n).length ≤ d := by
  intro d
  induction d with
  | zero => intro n h; omega
  | succ d ih =>
    intro n _ hn
    rw [toDecimal]
    split
    · simp
    case isFalse h =>
      rcases Nat.eq_zero_or_pos d with rfl | hd
      · norm_num at hn
        omega
      · have hdiv : n / 10 < 10 ^ d := by
          rw [Nat.div_lt_iff_lt_mul (by norm_num)]
          calc n < 10 ^ (d + 1) := hn
            _ = 10 ^ d * 10 := by ring
        have := ih (n / 10) hd hdiv
        simp only [List.length_append, List.length_singleton]
        omega

/-- `padStart` brings a short string to exactly the requested length. -/
theorem padStart_length (s : List Char) (n : Nat) (c : Char)
    (h : s.length ≤ n) : (padStart s n c).length = n := by
  simp only [padStart, List.length_append, List.length_replicate]
  omega

/-- Characters of `padStart s n c` come from `s` or are the pad character. -/
theorem padStart_mem {s : List Char} {n : Nat} {c x : Char}
    (hx : x ∈ padStart s n c) : x ∈ s ∨ x = c := by
  rcases List.mem_append.mp hx with h | h
  · exact Or.inr (List.eq_of_mem_replicate h)
  · exact Or.inl h

/-- `padDigits` always emits exactly `digits` characters. -/
theorem padDigits_length (n : Nat) (d : Digits) :
    (padDigits n d).length = d.toNat := by
  cases d
  · have h1 : n % 1000000 < 1000000 := Nat.mod_lt _ (by norm_num)
    have h2 : n % 1000000 < 10 ^ 6 := by norm_num [h1]
    exact padStart_length _ _ _ (toDecimal_length_le 6 _ (by norm_num) h2)
  · have h1 : n % 100000000 < 100000000 := Nat.mod_lt _ (by norm_num)
    have h2 : n % 100000000 < 10 ^ 8 := by norm_num [h1]
    exact padStart_length _ _ _ (toDecimal_length_le 8 _ (by norm_num) h2)

/-- `padDigits` emits only decimal digit characters. -/
theorem padDigits_isDigit (n : Nat) (d : Digits) :
    ∀ c ∈ padDigits n d, c.isDigit = true := by
  cases d <;>
  · intro c hc
    rcases padStart_mem hc with h | h
    · exact toDecimal_mem_isDigit _ _ h
    · subst h; decide

/-- Claim C9: for every secret, step, digit count in {6, 8} and algorithm,
the code string has length exactly `digits` and consists only of decimal
digits. -/
theorem codeForStep_length_and_digits (hmacFn : HmacFn) (secret : List Nat)
    (step : Int) (digits : Digits) (alg : Alg) :
    (generateTOTPForStep hmacFn secret step digits alg).length = digits.toNat ∧
    ∀ c ∈ generateTOTPForStep hmacFn secret step digits alg, c.isDigit = true :=
  ⟨padDigits_length _ _, padDigits_isDigit _ _⟩

/-- Witness for claim C9 at a concrete (degenerate) HMAC and input. -/
theorem codeForStep_length_and_digits_witness :
    (generateTOTPForStep (fun _ _ _ => []) [] 0 Digits.six Alg.sha1).length = 6 := by
  have h := (codeForStep_length_and_digits (fun _ _ _ => []) [] 0
    Digits.six Alg.sha1).1
  simpa [Digits.toNat] using h

/-- The first element surviving `dropWhile p` falsifies `p`. -/
theorem dropWhile_head_false {p : Char → Bool} :
    ∀ {l : List Char} {c : Char} {rest : List Char},
    l.dropWhile p = c :: rest → p c = false := by
  intro l
  induction l with
  | nil => intro c rest h; cases h
  | cons a t ih =>
    intro c rest h
    rw [List.dropWhile_cons] at h
    split at h
    · exact ih h
    case isFalse hp =>
      cases h
      exact Bool.of_not_eq_true hp

/-- The head of a trimmed string is never whitespace. -/
theorem jsTrim_head_false {l : List Char} {c : Char} {rest : List Char}
    (h : jsTrim l = c :: rest) : jsWhite c = false := by
  unfold jsTrim at h
  have hpre : c :: rest <+: l.dropWhile jsWhite := by
    have hsuf : ((l.dropWhile jsWhite).reverse.dropWhile jsWhite) <:+
        (l.dropWhile jsWhite).reverse := List.dropWhile_suffix _
    have := List.reverse_prefix.mpr hsuf
    rw [List.reverse_reverse, h] at this
    exact this
  obtain ⟨t, ht⟩ := hpre
  have : l.dropWhile jsWhite = c :: (rest ++ t) := by
    rw [← ht]
    rfl
  exact dropWhile_head_false this

/-- Trimming a string whose first character is not whitespace never empties
it. -/
theorem jsTrim_cons_ne_nil (xs : List Char) {c : Char}
    (hc : jsWhite c = false) : jsTrim (c :: xs) ≠ [] := by
  unfold jsTrim
  rw [List.dropWhile_cons, if_neg (by simp [hc])]
  intro habs
  rw [List.reverse_eq_nil_iff, List.dropWhile_eq_nil_iff] at habs
  have := habs c (by simp)
  rw [hc] at this
  cases this

/-- Claim C4, counterexample: on the decoded path `"A:"` the colon sits after
one character and the remainder after it is empty; the claim says the label
becomes the trimmed remainder (the empty string), but the code's
`account || cleaned` falls back to the whole cleaned path: the label is
`"A:"`, not `""`. -/
theorem splitLabel_empty_account_cex :
    splitLabel "A:".data = ("A:".data, some "A".data) ∧
    (splitLabel "A:".data).1 ≠ [] := by
  decide

/-- Claim C4, amended: when the trimmed path has its first colon at an index
`idx > 0`, the candidate issuer (the trimmed text before the colon) is always
nonempty and is returned as the issuer, and the label is the trimmed
remainder after the colon unless that remainder is empty, in which case the
whole trimmed path stays the label. -/
theorem splitLabel_colon_split (labelRaw : List Char) (idx : Nat)
    (h : jsIndexOf ':' (jsTrim labelRaw) = (idx : Int)) (hpos : 0 < idx) :
    splitLabel labelRaw =
      ((if jsTrim ((jsTrim labelRaw).drop (idx + 1)) = [] then jsTrim labelRaw
        else jsTrim ((jsTrim labelRaw).drop (idx + 1))),
       some (jsTrim ((jsTrim labelRaw).take idx))) := by
  obtain ⟨m, rfl⟩ : ∃ m, idx = m + 1 := ⟨idx - 1, by omega⟩
  have hne : jsTrim ((jsTrim labelRaw).take (m + 1)) ≠ [] := by
    cases hcl : jsTrim labelRaw with
    | nil =>
      rw [hcl] at h
      simp only [jsIndexOf] at h
      omega
    | cons c0 cs =>
      have hc0 : jsWhite c0 = false := jsTrim_head_false hcl
      rw [List.take_succ_cons]
      exact jsTrim_cons_ne_nil _ hc0
  have hpos' : (0 : Int) < ((m + 1 : Nat) : Int) := by exact_mod_cast hpos
  simp only [splitLabel, h, hpos', if_true, Int.toNat_natCast, if_neg hne]

/-- Witness for the amended claim C4 on the label `"Ex:Bob"`. -/
theorem splitLabel_colon_split_witness :
    splitLabel "Ex:Bob".data = ("Bob".data, some "Ex".data) := by
  rw [splitLabel_colon_split "Ex:Bob".data 2 (by decide) (by decide)]
  decide

/-- The loop of `numberTo8ByteBE`, applied to a cast natural, produces the
plain base-256 big-endian digits. -/
theorem numberTo8ByteBE_natCast (n : Nat) :
    numberTo8ByteBE (n : Int) = rfcUInt8BE n := by
  have hdiv : ∀ m : Nat, (m : Int).fdiv 256 = ((m / 256 : Nat) : Int) := by
    intro m
    rw [Int.fdiv_eq_ediv _ (by norm_num)]
    rfl
  have hmod : ∀ m : Nat, (m : Int).emod 256 = ((m % 256 : Nat) : Int) :=
    fun _ => rfl
  simp only [numberTo8ByteBE, numberTo8ByteBEAux, rfcUInt8BE, hdiv, hmod,
    Int.toNat_natCast, List.append_assoc, List.cons_append, List.nil_append,
    List.cons.injEq, and_true, Nat.div_div_eq_div_mul]
  norm_num

/-- Reads through `getD _ 0` from a byte list stay below 256. -/
theorem getD_lt_of_bytes {l : List Nat} (h : ∀ b ∈ l, b < 256) (i : Nat) :
    l.getD i 0 < 256 := by
  rcases hlt : l[i]? with _ | b
  · rw [List.getD_eq_getElem?_getD, hlt]
    norm_num
  · rw [List.getD_eq_getElem?_getD, hlt]
    exact h b (List.getElem?_mem hlt)

/-- Bitwise or of a multiple of `2^k` with a value below `2^k` is addition. -/
theorem lor_mul_two_pow_add (k m y : Nat) (hy : y < 2 ^ k) :
    (m * 2 ^ k) ||| y = m * 2 ^ k + y := by
  rw [mul_comm m]
  exact (Nat.mul_add_lt_is_or hy m).symm

/-- The code's dynamic truncation (JS shifts and ors) agrees with the RFC
4226 §5.3 description (big-endian 32-bit read with the top bit masked) on
every byte list. -/
theorem dynamicTruncate_eq_rfcTruncate (mac : List Nat)
    (h : ∀ b ∈ mac, b < 256) : dynamicTruncate mac = rfcTruncate mac := by
  simp only [dynamicTruncate, rfcTruncate]
  have hoff : mac.getD (mac.length - 1) 0 &&& 0x0f =
      mac.getD (mac.length - 1) 0 % 16 := by
    have h15 : (0x0f : Nat) = 2 ^ 4 - 1 := by norm_num
    rw [h15, Nat.and_pow_two_sub_one_eq_mod]
  rw [hoff]
  set off := mac.getD (mac.length - 1) 0 % 16 with hoffdef
  set p0 := mac.getD off 0 with hp0def
  set p1 := mac.getD (off + 1) 0 with hp1def
  set p2 := mac.getD (off + 2) 0 with hp2def
  set p3 := mac.getD (off + 3) 0 with hp3def
  have hp0 : p0 < 256 := getD_lt_of_bytes h _
  have hp1 : p1 < 256 := getD_lt_of_bytes h _
  have hp2 : p2 < 256 := getD_lt_of_bytes h _
  have hp3 : p3 < 256 := getD_lt_of_bytes h _
  have hm : p0 &&& 0x7f = p0 % 128 := by
    have h127 : (0x7f : Nat) = 2 ^ 7 - 1 := by norm_num
    rw [h127, Nat.and_pow_two_sub_one_eq_mod]
  rw [hm, Nat.shiftLeft_eq, Nat.shiftLeft_eq, Nat.shiftLeft_eq]
  rw [lor_mul_two_pow_add 24 (p0 % 128) (p1 * 2 ^ 16) (by norm_num; omega)]
  rw [show p0 % 128 * 2 ^ 24 + p1 * 2 ^ 16 =
    (p0 % 128 * 2 ^ 8 + p1) * 2 ^ 16 from by ring]
  rw [lor_mul_two_pow_add 16 _ (p2 * 2 ^ 8) (by norm_num; omega)]
  rw [show (p0 % 128 * 2 ^ 8 + p1) * 2 ^ 16 + p2 * 2 ^ 8 =
    ((p0 % 128 * 2 ^ 8 + p1) * 2 ^ 8 + p2) * 2 ^ 8 from by ring]
  rw [lor_mul_two_pow_add 8 _ p3 (by omega)]
  norm_num
  omega

/-- Claim C2: for every secret, nonnegative step, digit count in {6, 8} and
algorithm, the code's `generateTOTPForStep` equals the RFC 4226 §5.3
reference computation, given only that the HMAC primitive returns bytes. -/
theorem codeForStep_matches_rfc (hmacFn : HmacFn) (secret : List Nat)
    (step : Nat) (digits : Digits) (alg : Alg)
    (hbytes : ∀ msg : List Nat, ∀ b ∈ hmacFn alg secret msg, b < 256) :
    generateTOTPForStep hmacFn secret (step : Int) digits alg =
      rfcCodeForStep hmacFn secret step digits alg := by
  unfold generateTOTPForStep rfcCodeForStep
  rw [numberTo8ByteBE_natCast,
    dynamicTruncate_eq_rfcTruncate _ (hbytes (rfcUInt8BE step))]
  cases digits <;> rfl

/-- Witness for claim C2 with a concrete 20-byte MAC function. -/
theorem codeForStep_matches_rfc_witness :
    generateTOTPForStep (fun _ _ _ => List.range 20) [1, 2] ((7 : Nat) : Int)
        Digits.six Alg.sha1 =
      rfcCodeForStep (fun _ _ _ => List.range 20) [1, 2] 7 Digits.six Alg.sha1 :=
  codeForStep_matches_rfc (fun _ _ _ => List.range 20) [1, 2] 7 Digits.six
    Alg.sha1 (fun _ b hb => by
      have := List.mem_range.mp hb
      omega)

/-- Removing every `secret` pair makes `get` return `undefined`. -/
theorem paramsGet_filter_ne (ps : List (List Char × List Char))
    (key : List Char) :
    paramsGet (ps.filter fun kv => !decide (kv.1 = key)) key = none := by
  induction ps with
  | nil => rfl
  | cons kv rest ih =>
    obtain ⟨k0, v0⟩ := kv
    rw [List.filter_cons]
    by_cases hk : k0 = key
    · rw [if_neg (by simp [hk])]
      exact ih
    · rw [if_pos (by simp [hk])]
      rw [paramsGet, if_neg hk]
      exact ih

/-- Claim C10: a `secret` query parameter whose value is the empty string
behaves exactly like an absent parameter — the parse result is unchanged if
every `secret` pair is removed (both fail with the missing-secret error once
control reaches the check) — and the parser never returns a credential
descriptor in that situation. -/
theorem parse_empty_secret_like_absent (dec : List Char → Option (List Char))
    (u : URLModel)
    (h : paramsGet u.searchParams "secret".data = some []) :
    parseOtpauthUri dec u =
      parseOtpauthUri dec
        { u with
          searchParams := u.searchParams.filter fun kv => kv.1 ≠ "secret".data } ∧
    ∀ e, parseOtpauthUri dec u ≠ .ok e := by
  constructor
  · unfold parseOtpauthUri
    simp [h, paramsGet_filter_ne]
  · intro e hcontra
    unfold parseOtpauthUri at hcontra
    simp only [h] at hcontra
    split at hcontra
    · cases hcontra
    split at hcontra
    · cases hcontra
    split at hcontra
    · cases hcontra
    · simp at hcontra

/-- Witness for claim C10 on a concrete URI with an empty secret value. -/
theorem parse_empty_secret_like_absent_witness :
    parseOtpauthUri some
        ⟨"otpauth:".data, "totp".data, "/Ex".data, [("secret".data, [])]⟩ ≠
      .ok ⟨[], none, [], .sha1, .six, 30⟩ :=
  (parse_empty_secret_like_absent some
    ⟨"otpauth:".data, "totp".data, "/Ex".data, [("secret".data, [])]⟩
    (by decide)).2 ⟨[], none, [], .sha1, .six, 30⟩

end CROTP
